import Mathlib

/-!
Verification of the paper-catalog browser (a Vue single-file component).
The definitions below are a shallow embedding of the script section of the
component: pure data-transformation functions over an in-memory list of
paper records, translated function by function from the source.
-/

set_option maxHeartbeats 1000000

/-- The Paper record, translated from the TypeScript interface `Paper`. -/
structure Paper where
  venue : String
  year : Int
  title : String
  title_en : String
  abstract : String
  abstract_en : String
  keywords : String
  authors : String
  github_links : String
  pdf_download_url : String
  openreview_forum_url : String
  venue_id : String
deriving DecidableEq, Repr

/-- Character-list prefix test used to implement the substring scan. -/
def listStartsWith : List Char → List Char → Bool
  | [], _ => true
  | _ :: _, [] => false
  | d :: ds, c :: cs => d == c && listStartsWith ds cs

/-- Character-list contiguous-substring test: `sub` occurs somewhere in
the second list. -/
def listContainsSub (sub : List Char) : List Char → Bool
  | [] => listStartsWith sub []
  | c :: cs => listStartsWith sub (c :: cs) || listContainsSub sub cs

/-- JavaScript `String.prototype.includes`: contiguous substring test,
embedded as a scan over the underlying character lists. -/
def containsStr (s sub : String) : Bool :=
  listContainsSub sub.data s.data

/-- Leading-whitespace removal on a character list. -/
def trimLeftChars : List Char → List Char
  | [] => []
  | c :: cs => if c.isWhitespace then trimLeftChars cs else c :: cs

/-- JavaScript `String.prototype.trim`: whitespace removed from both
ends, implemented by trimming the left end twice through a reversal. -/
def trimS (s : String) : String :=
  String.mk ((trimLeftChars ((trimLeftChars s.data).reverse)).reverse)

/-- JavaScript `String.prototype.toLowerCase`, character-wise. -/
def toLowerS (s : String) : String :=
  String.mk (s.data.map Char.toLower)

/-- Splitting a character list on a separator character; every occurrence
separates, empty pieces are kept, the empty list yields one empty piece —
the semantics of JavaScript `String.prototype.split` with a one-character
separator. -/
def splitOnCharAux (sep : Char) : List Char → List Char → List (List Char)
  | [], cur => [cur.reverse]
  | c :: cs, cur =>
    if c == sep then cur.reverse :: splitOnCharAux sep cs []
    else splitOnCharAux sep cs (c :: cur)

/-- String-level wrapper for `splitOnCharAux`. -/
def splitS (s : String) (sep : Char) : List String :=
  (splitOnCharAux sep s.data []).map String.mk

/-- The filter state of the component.  `selectedYear` and `selectedVenue`
use `Option` for the source strings, where `none` stands for the literal
selection `all` and `some v` for a concrete year or venue (the source keeps
the year as a numeric string and applies `parseInt` at comparison time; the
embedding carries the parsed number).  The two tag collections embed the
JavaScript `Set` objects as duplicate-free insertion-ordered lists. -/
structure FilterState where
  searchQuery : String
  selectedYear : Option Int
  selectedVenue : Option String
  selectedTags : List String
  excludedTags : List String
  showOnlyWithCode : Bool
deriving Repr

/-- The per-paper tag set used by the filter: `keywords` split on
semicolons, each piece trimmed and lower-cased (source line building
`paperTags` inside `filteredPapers`). -/
def paperTags (p : Paper) : List String :=
  (splitS p.keywords ';').map (fun k => toLowerS (trimS k))

/-- The body of the predicate passed to `allPapers.filter` inside the
computed `filteredPapers`, translated clause by clause from the source. -/
def paperMatches (st : FilterState) (p : Paper) : Bool :=
  let query := trimS (toLowerS st.searchQuery)
  let matchesSearch := query == "" ||
    (containsStr (toLowerS p.title) query ||
     containsStr (toLowerS p.authors) query ||
     containsStr (toLowerS p.abstract) query ||
     containsStr (toLowerS p.keywords) query ||
     containsStr (toLowerS p.venue) query)
  let matchesYear := match st.selectedYear with
    | none => true
    | some y => p.year == y
  let matchesVenue := match st.selectedVenue with
    | none => true
    | some v => p.venue == v
  let tags := paperTags p
  let hasAllIncludedTags := st.selectedTags.all (fun t => tags.contains (toLowerS t))
  let hasNoExcludedTags := !(st.excludedTags.any (fun t => tags.contains (toLowerS t)))
  let hasCode := !st.showOnlyWithCode || trimS p.github_links != ""
  matchesSearch && matchesYear && matchesVenue &&
    hasAllIncludedTags && hasNoExcludedTags && hasCode

/-- The computed `filteredPapers`: the collection filtered by the combined
predicate, in collection order. -/
def filteredPapers (papers : List Paper) (st : FilterState) : List Paper :=
  papers.filter (paperMatches st)

/-- Spec-side match predicate for claim C1, following the words of the
claim: the query condition uses the query exactly as it sits in the filter
state, with no trimming.  Compared against `paperMatches`, which embeds the
source and trims the query. -/
def specMatchesC1 (st : FilterState) (p : Paper) : Bool :=
  let q := st.searchQuery
  let textOk := q == "" ||
    (containsStr (toLowerS p.title) (toLowerS q) ||
     containsStr (toLowerS p.authors) (toLowerS q) ||
     containsStr (toLowerS p.abstract) (toLowerS q) ||
     containsStr (toLowerS p.keywords) (toLowerS q) ||
     containsStr (toLowerS p.venue) (toLowerS q))
  let yearOk := match st.selectedYear with
    | none => true
    | some y => p.year == y
  let venueOk := match st.selectedVenue with
    | none => true
    | some v => p.venue == v
  let tagSet := (splitS p.keywords ';').map (fun k => trimS k)
  let inclOk := st.selectedTags.all (fun t => tagSet.any (fun k => toLowerS t == toLowerS k))
  let exclOk := !(st.excludedTags.any (fun t => tagSet.any (fun k => toLowerS t == toLowerS k)))
  let codeOk := !st.showOnlyWithCode || trimS p.github_links != ""
  textOk && yearOk && venueOk && inclOk && exclOk && codeOk

/-- Spec-side match predicate for the amended claim C1: identical to
`specMatchesC1` except that the text condition applies to the trimmed
query, as the source does. -/
def specMatchesC1Amended (st : FilterState) (p : Paper) : Bool :=
  let q := trimS (toLowerS st.searchQuery)
  let textOk := q == "" ||
    (containsStr (toLowerS p.title) q ||
     containsStr (toLowerS p.authors) q ||
     containsStr (toLowerS p.abstract) q ||
     containsStr (toLowerS p.keywords) q ||
     containsStr (toLowerS p.venue) q)
  let yearOk := match st.selectedYear with
    | none => true
    | some y => p.year == y
  let venueOk := match st.selectedVenue with
    | none => true
    | some v => p.venue == v
  let tagSet := (splitS p.keywords ';').map (fun k => trimS k)
  let inclOk := st.selectedTags.all (fun t => tagSet.any (fun k => toLowerS t == toLowerS k))
  let exclOk := !(st.excludedTags.any (fun t => tagSet.any (fun k => toLowerS t == toLowerS k)))
  let codeOk := !st.showOnlyWithCode || trimS p.github_links != ""
  textOk && yearOk && venueOk && inclOk && exclOk && codeOk

/-- A neutral filter state used for concrete instances. -/
def emptyFilter : FilterState :=
  { searchQuery := "", selectedYear := none, selectedVenue := none,
    selectedTags := [], excludedTags := [], showOnlyWithCode := false }

/-- A concrete sample paper used as counterexample material. -/
def samplePaperA : Paper :=
  { venue := "e", year := 2024, title := "a", title_en := "",
    abstract := "c", abstract_en := "", keywords := "d", authors := "b",
    github_links := "", pdf_download_url := "", openreview_forum_url := "",
    venue_id := "v" }

/-- A filter state whose query is a single space: the source trims it to
the empty query, the words of claim C1 do not. -/
def whitespaceQueryState : FilterState :=
  { emptyFilter with searchQuery := " " }

/-- Bridging lemma: the source predicate inside `filteredPapers` computes
exactly the amended spec-side predicate. -/
theorem paperMatches_eq_amended (st : FilterState) (p : Paper) :
    paperMatches st p = specMatchesC1Amended st p := by
  simp only [paperMatches, specMatchesC1Amended, paperTags,
    List.contains_eq_any_beq, List.any_map, Function.comp_def]

/-- C1 counterexample: with the query consisting of one space, the filter
keeps `samplePaperA` (the source trims the query to the empty string),
while the claim as stated requires the untrimmed one-space query to occur
in one of the text fields, which it does not. -/
theorem c1_filter_claim_counterexample :
    specMatchesC1 whitespaceQueryState samplePaperA = false ∧
    filteredPapers [samplePaperA] whitespaceQueryState = [samplePaperA] := by
  constructor
  · decide
  · decide

/-- C1 (amended): the output of the Filter Engine is an order-preserving
subsequence of the collection, and a paper occurs in the output iff it
occurs in the collection and satisfies all six filter conditions, the text
condition applying to the trimmed query. -/
theorem c1_filter_engine_amended (papers : List Paper) (st : FilterState) :
    (filteredPapers papers st).Sublist papers ∧
    (∀ p : Paper, p ∈ filteredPapers papers st ↔
      p ∈ papers ∧ specMatchesC1Amended st p = true) := by
  refine ⟨List.filter_sublist papers, fun p => ?_⟩
  rw [filteredPapers, List.mem_filter, paperMatches_eq_amended]

/-- Closed instance of the amended C1 theorem at a concrete collection and
filter state. -/
theorem c1_filter_engine_amended_witness :
    (filteredPapers [samplePaperA] whitespaceQueryState).Sublist [samplePaperA] ∧
    (samplePaperA ∈ filteredPapers [samplePaperA] whitespaceQueryState ↔
      samplePaperA ∈ [samplePaperA] ∧
        specMatchesC1Amended whitespaceQueryState samplePaperA = true) :=
  ⟨(c1_filter_engine_amended [samplePaperA] whitespaceQueryState).1,
   (c1_filter_engine_amended [samplePaperA] whitespaceQueryState).2 samplePaperA⟩

/-- JavaScript `Set.prototype.add` on the list embedding of a set:
append if absent. -/
def setAdd (l : List String) (x : String) : List String :=
  if l.contains x then l else l ++ [x]

/-- The source function `toggleTagFilter`: included goes to excluded,
excluded goes to neutral, neutral goes to included.  The pair is
(selectedTags, excludedTags) after the activation. -/
def toggleTagFilter (tag : String) (sel exc : List String) :
    List String × List String :=
  if sel.contains tag then (sel.erase tag, setAdd exc tag)
  else if exc.contains tag then (sel, exc.erase tag)
  else (setAdd sel tag, exc)

/-- Membership facts for `setAdd`. -/
theorem mem_setAdd_iff (l : List String) (x y : String) :
    y ∈ setAdd l x ↔ y ∈ l ∨ y = x := by
  simp only [setAdd]
  split
  · next h =>
    have hx : x ∈ l := by simpa using h
    exact ⟨Or.inl, by rintro (hy | rfl) <;> [exact hy; exact hx]⟩
  · simp

/-- C5: the tag toggle is a 3-cycle from any neutral starting state, the
toggled tag is in at most one of the two sets at every intermediate point,
and one activation preserves disjointness of the two duplicate-free sets
for every tag. -/
theorem c5_tag_toggle_three_cycle (sel exc : List String) (tag : String)
    (hsel : tag ∉ sel) (hexc : tag ∉ exc) :
    (tag ∈ (toggleTagFilter tag sel exc).1 ∧
     tag ∉ (toggleTagFilter tag sel exc).2) ∧
    (tag ∉ (toggleTagFilter tag (toggleTagFilter tag sel exc).1
              (toggleTagFilter tag sel exc).2).1 ∧
     tag ∈ (toggleTagFilter tag (toggleTagFilter tag sel exc).1
              (toggleTagFilter tag sel exc).2).2) ∧
    (toggleTagFilter tag
      (toggleTagFilter tag (toggleTagFilter tag sel exc).1
        (toggleTagFilter tag sel exc).2).1
      (toggleTagFilter tag (toggleTagFilter tag sel exc).1
        (toggleTagFilter tag sel exc).2).2 = (sel, exc)) ∧
    (∀ (a b : List String) (u t : String), a.Nodup →
      (¬(t ∈ a ∧ t ∈ b)) →
      ¬(t ∈ (toggleTagFilter u a b).1 ∧ t ∈ (toggleTagFilter u a b).2)) := by
  have hadd : ∀ (l : List String) (x : String), x ∉ l → setAdd l x = l ++ [x] := by
    intro l x hx
    simp [setAdd, hx]
  have herase : ∀ (l : List String) (x : String), x ∉ l → (l ++ [x]).erase x = l := by
    intro l x hx
    rw [List.erase_append_right _ hx]
    simp
  have step1 : toggleTagFilter tag sel exc = (sel ++ [tag], exc) := by
    simp [toggleTagFilter, hsel, hexc, hadd sel tag hsel]
  have hmem1 : tag ∈ sel ++ [tag] := by simp
  have step2 : toggleTagFilter tag (sel ++ [tag]) exc = (sel, exc ++ [tag]) := by
    simp [toggleTagFilter, hmem1, herase sel tag hsel, hadd exc tag hexc]
  have hmem2 : tag ∈ exc ++ [tag] := by simp
  have step3 : toggleTagFilter tag sel (exc ++ [tag]) = (sel, exc) := by
    simp [toggleTagFilter, hsel, hmem2, herase exc tag hexc]
  refine ⟨?_, ?_, ?_, ?_⟩
  · rw [step1]
    exact ⟨hmem1, hexc⟩
  · rw [step1, step2]
    exact ⟨hsel, hmem2⟩
  · rw [step1, step2, step3]
  · intro a b u t hnd hdisj hcontra
    by_cases hau : u ∈ a
    · have : toggleTagFilter u a b = (a.erase u, setAdd b u) := by
        simp [toggleTagFilter, hau]
      rw [this] at hcontra
      obtain ⟨h1, h2⟩ := hcontra
      rcases (mem_setAdd_iff b u t).mp h2 with h2b | rfl
      · exact hdisj ⟨List.mem_of_mem_erase h1, h2b⟩
      · exact hnd.not_mem_erase h1
    · by_cases hbu : u ∈ b
      · have : toggleTagFilter u a b = (a, b.erase u) := by
          simp [toggleTagFilter, hau, hbu]
        rw [this] at hcontra
        exact hdisj ⟨hcontra.1, List.mem_of_mem_erase hcontra.2⟩
      · have : toggleTagFilter u a b = (setAdd a u, b) := by
          simp [toggleTagFilter, hau, hbu]
        rw [this] at hcontra
        obtain ⟨h1, h2⟩ := hcontra
        rcases (mem_setAdd_iff a u t).mp h1 with h1a | rfl
        · exact hdisj ⟨h1a, h2⟩
        · exact hbu h2

/-- Closed instance of the C5 theorem: toggling the tag nlp three times
from the empty state. -/
theorem c5_tag_toggle_three_cycle_witness :
    (("nlp" ∈ (toggleTagFilter "nlp" [] []).1 ∧
      "nlp" ∉ (toggleTagFilter "nlp" [] []).2) ∧
     ("nlp" ∉ (toggleTagFilter "nlp" (toggleTagFilter "nlp" [] []).1
                (toggleTagFilter "nlp" [] []).2).1 ∧
      "nlp" ∈ (toggleTagFilter "nlp" (toggleTagFilter "nlp" [] []).1
                (toggleTagFilter "nlp" [] []).2).2) ∧
     (toggleTagFilter "nlp"
       (toggleTagFilter "nlp" (toggleTagFilter "nlp" [] []).1
         (toggleTagFilter "nlp" [] []).2).1
       (toggleTagFilter "nlp" (toggleTagFilter "nlp" [] []).1
         (toggleTagFilter "nlp" [] []).2).2 = ([], [])) ∧
     (∀ (a b : List String) (u t : String), a.Nodup →
       (¬(t ∈ a ∧ t ∈ b)) →
       ¬(t ∈ (toggleTagFilter u a b).1 ∧ t ∈ (toggleTagFilter u a b).2))) :=
  c5_tag_toggle_three_cycle [] [] "nlp" (by simp) (by simp)

/-- The outcome of fetching and parsing one source document inside
`loadPapersData`.  `failure` models the fetch or the json parse throwing;
`nested` models a parsed object carrying `papers_by_venue_year` (venue to
year to paper list); `flat` models a parsed array of papers; `other`
models any other parsed value, which the shape checks skip silently. -/
inductive FetchedDoc where
  | failure : FetchedDoc
  | nested (d : List (String × List (Int × List Paper))) : FetchedDoc
  | flat (l : List Paper) : FetchedDoc
  | other : FetchedDoc
deriving DecidableEq, Repr

/-- Flattening of the nested venue-to-year-to-list shape: the two nested
for loops of the source, concatenating every leaf list. -/
def flattenNested (d : List (String × List (Int × List Paper))) : List Paper :=
  d.flatMap (fun ve => ve.2.flatMap (fun ye => ye.2))

/-- Contribution of the first document: the source only processes it when
it carries `papers_by_venue_year`. -/
def processDoc1 : FetchedDoc → List Paper
  | .nested d => flattenNested d
  | _ => []

/-- Contribution of the second document: the source only processes it when
it is an array. -/
def processDoc2 : FetchedDoc → List Paper
  | .flat l => l
  | _ => []

/-- The source `loadPapersData`: one try block fetches and processes
document 1 and then document 2, and a single catch clause logs any throw.
A throw while document 1 is fetched or parsed therefore skips document 2
entirely, and the collection keeps whatever had been appended before the
throw. -/
def loadPapersData (doc1 doc2 : FetchedDoc) : List Paper :=
  match doc1 with
  | .failure => []
  | _ =>
    match doc2 with
    | .failure => processDoc1 doc1
    | _ => processDoc1 doc1 ++ processDoc2 doc2

/-- A minimal concrete paper with a given title. -/
def mkPaper (t : String) : Paper :=
  { venue := "V", year := 2024, title := t, title_en := "",
    abstract := "", abstract_en := "", keywords := "", authors := "",
    github_links := "", pdf_download_url := "", openreview_forum_url := "",
    venue_id := "v" }

/-- Five concrete records for the loader scenario of the claim. -/
def fiveRecords : List Paper :=
  [mkPaper "p1", mkPaper "p2", mkPaper "p3", mkPaper "p4", mkPaper "p5"]

/-- C2 counterexample: when document 1 fails and document 2 succeeds with
five records, the loader ends with an empty collection, not with those
five records, because the single catch clause aborts the rest of the try
block. -/
theorem c2_loader_counterexample :
    loadPapersData .failure (.flat fiveRecords) = [] ∧
    loadPapersData .failure (.flat fiveRecords) ≠ fiveRecords := by
  refine ⟨rfl, ?_⟩
  rw [show loadPapersData .failure (.flat fiveRecords) = [] from rfl]
  decide

/-- C2 (amended): no exception escapes the loader (it is a total
function), but a failure on one document aborts all later documents: a
document 1 failure yields the empty collection whatever document 2 holds,
while records accumulated before a document 2 failure are retained. -/
theorem c2_loader_amended :
    (∀ doc2 : FetchedDoc, loadPapersData .failure doc2 = []) ∧
    (∀ doc1 : FetchedDoc, doc1 ≠ .failure →
      loadPapersData doc1 .failure = processDoc1 doc1) ∧
    (∀ doc1 doc2 : FetchedDoc, doc1 ≠ .failure → doc2 ≠ .failure →
      loadPapersData doc1 doc2 = processDoc1 doc1 ++ processDoc2 doc2) := by
  refine ⟨fun doc2 => rfl, fun doc1 h1 => ?_, fun doc1 doc2 h1 h2 => ?_⟩
  · cases doc1 <;> first | exact absurd rfl h1 | rfl
  · cases doc1 <;> first | exact absurd rfl h1 | cases doc2 <;>
      first | exact absurd rfl h2 | rfl

/-- Closed instance of the amended C2 theorem: a nested document 1 and a
flat document 2, both successful, concatenate. -/
theorem c2_loader_amended_witness :
    loadPapersData (.nested [("V", [(2024, [mkPaper "a"])])]) (.flat fiveRecords)
      = processDoc1 (.nested [("V", [(2024, [mkPaper "a"])])])
        ++ processDoc2 (.flat fiveRecords) :=
  c2_loader_amended.2.2 (.nested [("V", [(2024, [mkPaper "a"])])])
    (.flat fiveRecords) (by decide) (by decide)

/-- The computed `totalPages` of the source: the ceiling of
filtered length over page size, with NO lower bound of one.
`Math.ceil (len / pageSize)` over a positive page size equals this
natural-number ceiling division. -/
def totalPages (len pageSize : Nat) : Nat :=
  (len + pageSize - 1) / pageSize

/-- The computed `paginatedPapers` of the source: the slice of the
filtered list from `(currentPage - 1) * pageSize` of length `pageSize`. -/
def paginatedPapers (filtered : List Paper) (currentPage pageSize : Nat) :
    List Paper :=
  (filtered.drop ((currentPage - 1) * pageSize)).take pageSize

/-- The source `goToPage`: moves only when the target lies between one
and `totalPages`, otherwise leaves the page unchanged. -/
def goToPage (total page cur : Nat) : Nat :=
  if 1 ≤ page ∧ page ≤ total then page else cur

/-- The source `prevPage`: decrements only above page one. -/
def prevPage (cur : Nat) : Nat :=
  if 1 < cur then cur - 1 else cur

/-- The source `nextPage`: increments only below the last page. -/
def nextPage (total cur : Nat) : Nat :=
  if cur < total then cur + 1 else cur

/-- The source `goToInputPage`: a parsed numeric input moves the page only
inside the valid range; a non-numeric (`none`) or out-of-range input keeps
the page unchanged and only clears the input after a notice. -/
def goToInputPage (total : Nat) (input : Option Int) (cur : Nat) : Nat :=
  match input with
  | none => cur
  | some n => if 1 ≤ n ∧ n ≤ (total : Int) then n.toNat else cur

/-- C3 counterexample: at filtered length zero and page size fifty, the
source computes zero total pages, not the claimed
`max 1 (ceil (0 / 50)) = 1`. -/
theorem c3_total_pages_counterexample :
    totalPages 0 50 = 0 ∧ totalPages 0 50 ≠ max 1 ((0 + 50 - 1) / 50) := by
  decide

/-- C3 (amended): `totalPages` is the exact ceiling of L over P (so it is
zero when L is zero and equals `max 1 (ceil (L / P))` exactly when L is
positive), and the page is never clamped: the navigation operations —
`goToPage`, `prevPage`, `nextPage` and the page-jump `goToInputPage` —
leave the current page unchanged when the target is outside
`[1, totalPages]`, so a page that starts in `[1, max 1 totalPages]`
stays there. -/
theorem c3_pagination_amended (L P : Nat) (hP : 0 < P) :
    (L ≤ totalPages L P * P) ∧
    (totalPages L P * P < L + P) ∧
    (0 < L → totalPages L P = max 1 (totalPages L P)) ∧
    (totalPages 0 P = 0) ∧
    (∀ (total cur page : Nat) (input : Option Int),
      1 ≤ cur → cur ≤ max 1 total →
      (1 ≤ goToPage total page cur ∧ goToPage total page cur ≤ max 1 total) ∧
      (1 ≤ prevPage cur ∧ prevPage cur ≤ max 1 total) ∧
      (1 ≤ nextPage total cur ∧ nextPage total cur ≤ max 1 total) ∧
      (1 ≤ goToInputPage total input cur ∧
        goToInputPage total input cur ≤ max 1 total)) := by
  have hup := Nat.lt_div_mul_add (a := L + P - 1) hP
  have hdown := Nat.div_mul_le_self (L + P - 1) P
  refine ⟨?_, ?_, ?_, ?_, ?_⟩
  · simp only [totalPages]
    omega
  · simp only [totalPages]
    omega
  · intro hL
    have : 0 < totalPages L P := by
      simp only [totalPages]
      have h1 : 1 ≤ (L + P - 1) / P := (Nat.le_div_iff_mul_le hP).mpr (by omega)
      omega
    omega
  · simp only [totalPages]
    rw [Nat.div_eq_of_lt (by omega)]
  · intro total cur page input h1 h2
    refine ⟨?_, ?_, ?_, ?_⟩
    · simp only [goToPage]
      split <;> omega
    · simp only [prevPage]
      split <;> omega
    · simp only [nextPage]
      split <;> omega
    · cases input with
      | none => simp only [goToInputPage]; omega
      | some n =>
        simp only [goToInputPage]
        split
        · next hn => omega
        · omega

/-- Closed instance of the amended C3 theorem at L = 120, P = 50,
projected through concrete navigation states. -/
theorem c3_pagination_amended_witness :
    (120 ≤ totalPages 120 50 * 50) ∧
    (totalPages 120 50 * 50 < 120 + 50) ∧
    (0 < 120 → totalPages 120 50 = max 1 (totalPages 120 50)) ∧
    (totalPages 0 50 = 0) ∧
    (∀ (total cur page : Nat) (input : Option Int),
      1 ≤ cur → cur ≤ max 1 total →
      (1 ≤ goToPage total page cur ∧ goToPage total page cur ≤ max 1 total) ∧
      (1 ≤ prevPage cur ∧ prevPage cur ≤ max 1 total) ∧
      (1 ≤ nextPage total cur ∧ nextPage total cur ≤ max 1 total) ∧
      (1 ≤ goToInputPage total input cur ∧
        goToInputPage total input cur ≤ max 1 total)) :=
  c3_pagination_amended 120 50 (by decide)

/-- Concatenation of the page slices for pages one through n. -/
def pagesConcat (filtered : List Paper) (pageSize n : Nat) : List Paper :=
  (List.range n).flatMap (fun i => paginatedPapers filtered (i + 1) pageSize)

/-- The concatenation of the first n pages is the first n * P elements. -/
theorem pagesConcat_eq_take (filtered : List Paper) (P : Nat) :
    ∀ n : Nat, pagesConcat filtered P n = filtered.take (n * P) := by
  intro n
  induction n with
  | zero => simp [pagesConcat]
  | succ n ih =>
    simp only [pagesConcat, List.range_succ, List.flatMap_append] at ih ⊢
    rw [ih]
    simp only [List.flatMap_cons, List.flatMap_nil, List.append_nil,
      paginatedPapers, Nat.add_sub_cancel]
    rw [Nat.succ_mul, List.take_add]

/-- C7: for every filtered list and positive page size, concatenating the
page slices for pages one through `max 1 (ceil (L / P))` — the page count
the claim states — reconstructs the filtered list exactly; the same holds
for the page count the source computes. -/
theorem c7_pages_reconstruct (filtered : List Paper) (P : Nat) (hP : 0 < P) :
    pagesConcat filtered P (max 1 (totalPages filtered.length P)) = filtered ∧
    pagesConcat filtered P (totalPages filtered.length P) = filtered := by
  have hcover : filtered.length ≤ totalPages filtered.length P * P := by
    simp only [totalPages]
    have hup := Nat.lt_div_mul_add (a := filtered.length + P - 1) hP
    omega
  constructor
  · rw [pagesConcat_eq_take]
    refine List.take_of_length_le ?_
    calc filtered.length ≤ totalPages filtered.length P * P := hcover
      _ ≤ max 1 (totalPages filtered.length P) * P :=
        Nat.mul_le_mul_right P (Nat.le_max_right 1 _)
  · rw [pagesConcat_eq_take]
    exact List.take_of_length_le hcover

/-- Closed instance of the C7 theorem: five records at page size two. -/
theorem c7_pages_reconstruct_witness :
    pagesConcat fiveRecords 2 (max 1 (totalPages fiveRecords.length 2))
      = fiveRecords ∧
    pagesConcat fiveRecords 2 (totalPages fiveRecords.length 2)
      = fiveRecords :=
  c7_pages_reconstruct fiveRecords 2 (by decide)

/-- The reactive state the pagination depends on: the collection, the
filter state, the current page and the page size. -/
structure AppState where
  allPapers : List Paper
  filter : FilterState
  currentPage : Nat
  papersPerPage : Nat
deriving Repr

/-- The page of results the template reads: `paginatedPapers` over the
current filtered list, page and page size. -/
def currentPageItems (s : AppState) : List Paper :=
  paginatedPapers (filteredPapers s.allPapers s.filter) s.currentPage
    s.papersPerPage

/-- Setting the search query.  The `watchEffect` of the source reads
`filteredPapers` — whose reactive dependencies are the collection and all
filter fields — and writes `currentPage = 1`; it is flushed before the
next render reads `paginatedPapers`.  Each mutating operation below is
therefore composed with that reset. -/
def setSearchQuery (q : String) (s : AppState) : AppState :=
  { s with filter := { s.filter with searchQuery := q }, currentPage := 1 }

/-- Setting the year dropdown (with the `watchEffect` reset). -/
def setSelectedYear (y : Option Int) (s : AppState) : AppState :=
  { s with filter := { s.filter with selectedYear := y }, currentPage := 1 }

/-- Setting the venue dropdown (with the `watchEffect` reset). -/
def setSelectedVenue (v : Option String) (s : AppState) : AppState :=
  { s with filter := { s.filter with selectedVenue := v }, currentPage := 1 }

/-- One activation of the three-state tag toggle on the application state
(with the `watchEffect` reset). -/
def appToggleTag (tag : String) (s : AppState) : AppState :=
  let r := toggleTagFilter tag s.filter.selectedTags s.filter.excludedTags
  { s with
    filter := { s.filter with selectedTags := r.1, excludedTags := r.2 },
    currentPage := 1 }

/-- The source `toggleShowOnlyWithCode` (with the `watchEffect` reset). -/
def appToggleShowOnlyWithCode (s : AppState) : AppState :=
  { s with
    filter := { s.filter with showOnlyWithCode := !s.filter.showOnlyWithCode },
    currentPage := 1 }

/-- The source `changePapersPerPage`: sets the page size and explicitly
resets the current page to one. -/
def changePapersPerPage (count : Nat) (s : AppState) : AppState :=
  { s with papersPerPage := count, currentPage := 1 }

/-- C4: after a change to any filter-state field — query, year, venue, a
tag toggle, the code-only flag — and after a page-size change, the current
page is one, and the page of results subsequently computed is the first
page (the first pageSize elements) of the new filtered list. -/
theorem c4_filter_change_resets_page (s : AppState) (q : String)
    (y : Option Int) (v : Option String) (tag : String) (n : Nat) :
    ((setSearchQuery q s).currentPage = 1 ∧
     (setSelectedYear y s).currentPage = 1 ∧
     (setSelectedVenue v s).currentPage = 1 ∧
     (appToggleTag tag s).currentPage = 1 ∧
     (appToggleShowOnlyWithCode s).currentPage = 1 ∧
     (changePapersPerPage n s).currentPage = 1) ∧
    (currentPageItems (setSearchQuery q s)
       = (filteredPapers s.allPapers (setSearchQuery q s).filter).take
           s.papersPerPage ∧
     currentPageItems (setSelectedYear y s)
       = (filteredPapers s.allPapers (setSelectedYear y s).filter).take
           s.papersPerPage ∧
     currentPageItems (setSelectedVenue v s)
       = (filteredPapers s.allPapers (setSelectedVenue v s).filter).take
           s.papersPerPage ∧
     currentPageItems (appToggleTag tag s)
       = (filteredPapers s.allPapers (appToggleTag tag s).filter).take
           s.papersPerPage ∧
     currentPageItems (appToggleShowOnlyWithCode s)
       = (filteredPapers s.allPapers (appToggleShowOnlyWithCode s).filter).take
           s.papersPerPage ∧
     currentPageItems (changePapersPerPage n s)
       = (filteredPapers s.allPapers s.filter).take n) := by
  refine ⟨⟨rfl, rfl, rfl, rfl, rfl, rfl⟩, ?_, ?_, ?_, ?_, ?_, ?_⟩ <;>
    simp [currentPageItems, paginatedPapers, setSearchQuery, setSelectedYear,
      setSelectedVenue, appToggleTag, appToggleShowOnlyWithCode,
      changePapersPerPage]

/-- `Map.set(tag, (get(tag) or 0) + 1)` on the insertion-ordered
association-list embedding of the JavaScript `Map`: an existing key keeps
its position and its value is incremented, a new key is appended with
count one. -/
def bumpTag : List (String × Nat) → String → List (String × Nat)
  | [], t => [(t, 1)]
  | (k, c) :: rest, t =>
    if k = t then (k, c + 1) :: rest else (k, c) :: bumpTag rest t

/-- The inner loop of `tagsWithCounts`: each split piece of one keyword
string is trimmed and lower-cased, empty pieces are skipped, the rest
bump their count. -/
def processPieces (m : List (String × Nat)) (pieces : List String) :
    List (String × Nat) :=
  pieces.foldl (fun m k =>
    let tk := toLowerS (trimS k)
    if tk = "" then m else bumpTag m tk) m

/-- The count map built by `tagsWithCounts` over the whole collection. -/
def tagCountMap (papers : List Paper) : List (String × Nat) :=
  papers.foldl (fun m p => processPieces m (splitS p.keywords ';')) []

/-- Lexicographic code-point comparison of character lists, the reading
of the locale comparison used by the sort comparator of the source. -/
def lexLeChars : List Char → List Char → Bool
  | [], _ => true
  | _ :: _, [] => false
  | a :: as, b :: bs =>
    if a.toNat < b.toNat then true
    else if b.toNat < a.toNat then false
    else lexLeChars as bs

/-- String-level lexicographic comparison. -/
def strLe (a b : String) : Bool :=
  lexLeChars a.data b.data

theorem lexLeChars_total : ∀ a b : List Char,
    lexLeChars a b = true ∨ lexLeChars b a = true := by
  intro a
  induction a with
  | nil => intro b; exact Or.inl rfl
  | cons x xs ih =>
    intro b
    cases b with
    | nil => exact Or.inr rfl
    | cons y ys =>
      simp only [lexLeChars]
      rcases Nat.lt_trichotomy x.toNat y.toNat with h | h | h
      · left
        simp [h]
      · have h1 : ¬x.toNat < y.toNat := by omega
        have h2 : ¬y.toNat < x.toNat := by omega
        rcases ih ys with hh | hh
        · left
          simp [h1, h2, hh]
        · right
          simp [h1, h2, hh]
      · right
        simp [h]

theorem lexLeChars_trans : ∀ a b c : List Char,
    lexLeChars a b = true → lexLeChars b c = true →
    lexLeChars a c = true := by
  intro a
  induction a with
  | nil => intro b c _ _; rfl
  | cons x xs ih =>
    intro b c h1 h2
    cases b with
    | nil => simp [lexLeChars] at h1
    | cons y ys =>
      cases c with
      | nil => simp [lexLeChars] at h2
      | cons z zs =>
        simp only [lexLeChars] at h1 h2 ⊢
        rcases Nat.lt_trichotomy x.toNat y.toNat with hxy | hxy | hxy <;>
          rcases Nat.lt_trichotomy y.toNat z.toNat with hyz | hyz | hyz
        all_goals first
          | (exact Bool.noConfusion h1)
          | (exact Bool.noConfusion h2)
          | (simp [show x.toNat < z.toNat by omega])
          | (exfalso
             simp only [if_neg (by omega : ¬y.toNat < z.toNat),
               if_pos (by omega : z.toNat < y.toNat)] at h2
             exact Bool.noConfusion h2)
          | (exfalso
             simp only [if_neg (by omega : ¬x.toNat < y.toNat),
               if_pos (by omega : y.toNat < x.toNat)] at h1
             exact Bool.noConfusion h1)
          | (have e1 : ¬x.toNat < y.toNat := by omega
             have e2 : ¬y.toNat < x.toNat := by omega
             have e3 : ¬y.toNat < z.toNat := by omega
             have e4 : ¬z.toNat < y.toNat := by omega
             simp only [if_neg e1, if_neg e2] at h1
             simp only [if_neg e3, if_neg e4] at h2
             simp only [if_neg (by omega : ¬x.toNat < z.toNat),
               if_neg (by omega : ¬z.toNat < x.toNat)]
             exact ih ys zs h1 h2)

/-- The sort order of `tagsWithCounts`: count descending, ties by
ascending lexicographic order on the (already lower-cased) tag — the
comparator of the source with its locale-aware tie comparison read as
code-point order. -/
def tagOrder (a b : String × Nat) : Prop :=
  b.2 < a.2 ∨ (a.2 = b.2 ∧ strLe a.1 b.1 = true)

instance : DecidableRel tagOrder := fun a b => by
  unfold tagOrder
  infer_instance

instance : IsTotal (String × Nat) tagOrder :=
  ⟨by
    intro a b
    rcases Nat.lt_trichotomy a.2 b.2 with h | h | h
    · exact Or.inr (Or.inl h)
    · rcases lexLeChars_total a.1.data b.1.data with h1 | h1
      · exact Or.inl (Or.inr ⟨h, h1⟩)
      · exact Or.inr (Or.inr ⟨h.symm, h1⟩)
    · exact Or.inl (Or.inl h)⟩

instance : IsTrans (String × Nat) tagOrder :=
  ⟨by
    intro a b c hab hbc
    rcases hab with h1 | ⟨h1, h1p⟩ <;> rcases hbc with h2 | ⟨h2, h2p⟩
    · exact Or.inl (Nat.lt_trans h2 h1)
    · exact Or.inl (by omega)
    · exact Or.inl (by omega)
    · exact Or.inr ⟨by omega, lexLeChars_trans a.1.data b.1.data c.1.data h1p h2p⟩⟩

/-- The computed `tagsWithCounts` of the source: build the count map,
sort by the comparator (the source's stable `Array.sort` is modelled by
insertion sort over the total preorder `tagOrder`), truncate to the top
fifty. -/
def tagsWithCounts (papers : List Paper) : List (String × Nat) :=
  (List.insertionSort tagOrder (tagCountMap papers)).take 50

/-- The cleaned tag pieces of one keyword string: split on semicolons,
trimmed and lower-cased, empty pieces discarded. -/
def cleanPieces (pieces : List String) : List String :=
  (pieces.map (fun k => toLowerS (trimS k))).filter (fun tk => tk != "")

/-- All tag occurrences over the whole collection, with multiplicity. -/
def tagOccurrences (papers : List Paper) : List String :=
  papers.flatMap (fun p => cleanPieces (splitS p.keywords ';'))

/-- Lookup in the association-list count map, zero for an absent key. -/
def getCount : List (String × Nat) → String → Nat
  | [], _ => 0
  | (k, c) :: rest, t => if k = t then c else getCount rest t

/-- The keys of the count map, in insertion order. -/
def keysOf (m : List (String × Nat)) : List String :=
  m.map Prod.fst

theorem getCount_bumpTag (m : List (String × Nat)) (t u : String) :
    getCount (bumpTag m u) t = getCount m t + (if u = t then 1 else 0) := by
  induction m with
  | nil =>
    simp only [bumpTag, getCount]
    by_cases h : u = t <;> simp [h]
  | cons hd rest ih =>
    obtain ⟨k, c⟩ := hd
    simp only [bumpTag]
    by_cases hk : k = u
    · simp only [if_pos hk, getCount]
      by_cases ht : k = t
      · have hut : u = t := hk.symm.trans ht
        simp [ht, hut]
      · have hut : ¬u = t := fun h => ht (hk.trans h)
        simp [ht, hut]
    · simp only [if_neg hk, getCount]
      by_cases ht : k = t
      · have hut : ¬u = t := fun h => hk (ht.trans h.symm)
        simp [ht, hut]
      · simp [ht, ih]

theorem getCount_processPieces (pieces : List String) :
    ∀ (m : List (String × Nat)) (t : String),
    getCount (processPieces m pieces) t
      = getCount m t + (cleanPieces pieces).count t := by
  induction pieces with
  | nil => intro m t; simp [processPieces, cleanPieces]
  | cons k rest ih =>
    intro m t
    simp only [processPieces, List.foldl_cons, cleanPieces, List.map_cons,
      List.filter_cons]
    by_cases h : toLowerS (trimS k) = ""
    · simp only [h]
      simpa [processPieces, cleanPieces, h] using ih m t
    · simp only [if_neg h]
      have hb : ((toLowerS (trimS k)) != "") = true := by
        simpa using h
      simp only [hb, if_pos]
      have := ih (bumpTag m (toLowerS (trimS k))) t
      simp only [processPieces, cleanPieces] at this
      rw [this, getCount_bumpTag, List.count_cons]
      have : ((toLowerS (trimS k)) == t) = true ↔ toLowerS (trimS k) = t := by
        simp
      by_cases he : toLowerS (trimS k) = t
      · simp [he]
        omega
      · simp [he]

theorem getCount_tagCountMap_aux (papers : List Paper) :
    ∀ (m : List (String × Nat)) (t : String),
    getCount (papers.foldl
      (fun m p => processPieces m (splitS p.keywords ';')) m) t
      = getCount m t + (tagOccurrences papers).count t := by
  induction papers with
  | nil => intro m t; simp [tagOccurrences]
  | cons p rest ih =>
    intro m t
    simp only [List.foldl_cons, tagOccurrences, List.flatMap_cons,
      List.count_append]
    rw [ih, getCount_processPieces]
    simp only [tagOccurrences]
    omega

/-- The count map assigns to every tag its number of occurrences over the
whole collection. -/
theorem getCount_tagCountMap (papers : List Paper) (t : String) :
    getCount (tagCountMap papers) t = (tagOccurrences papers).count t := by
  have := getCount_tagCountMap_aux papers [] t
  simpa [tagCountMap, getCount] using this

theorem keysOf_bumpTag (m : List (String × Nat)) (u : String) :
    keysOf (bumpTag m u)
      = if u ∈ keysOf m then keysOf m else keysOf m ++ [u] := by
  induction m with
  | nil => simp [bumpTag, keysOf]
  | cons hd rest ih =>
    obtain ⟨k, c⟩ := hd
    simp only [bumpTag, keysOf, List.map_cons]
    by_cases hk : k = u
    · simp [if_pos hk, hk, keysOf]
    · have hne : ¬u = k := fun h => hk h.symm
      simp only [if_neg hk, List.map_cons, List.mem_cons, hne, false_or]
      by_cases hm : u ∈ keysOf rest
      · simp only [keysOf] at hm ih
        simp [hm, ih]
      · simp only [keysOf] at hm ih
        simp [hm, ih]

theorem nodup_keysOf_bumpTag (m : List (String × Nat)) (u : String)
    (h : (keysOf m).Nodup) : (keysOf (bumpTag m u)).Nodup := by
  rw [keysOf_bumpTag]
  by_cases hm : u ∈ keysOf m
  · simpa [hm] using h
  · simp [hm, List.nodup_append, h]

theorem nodup_keysOf_processPieces (pieces : List String) :
    ∀ m : List (String × Nat), (keysOf m).Nodup →
    (keysOf (processPieces m pieces)).Nodup := by
  induction pieces with
  | nil => intro m h; simpa [processPieces] using h
  | cons k rest ih =>
    intro m h
    simp only [processPieces, List.foldl_cons]
    by_cases hk : toLowerS (trimS k) = ""
    · simp only [hk, if_pos]
      exact ih m (by simpa using h)
    · simp only [if_neg hk]
      exact ih _ (nodup_keysOf_bumpTag m _ h)

theorem nodup_keysOf_tagCountMap (papers : List Paper) :
    (keysOf (tagCountMap papers)).Nodup := by
  have aux : ∀ m : List (String × Nat), (keysOf m).Nodup →
      (keysOf (papers.foldl
        (fun m p => processPieces m (splitS p.keywords ';')) m)).Nodup := by
    induction papers with
    | nil => intro m h; simpa using h
    | cons p rest ih =>
      intro m h
      simp only [List.foldl_cons]
      exact ih _ (nodup_keysOf_processPieces _ m h)
  exact aux [] (by simp [keysOf])

theorem getCount_of_mem (m : List (String × Nat))
    (hn : (keysOf m).Nodup) (t : String) (n : Nat) (hm : (t, n) ∈ m) :
    getCount m t = n := by
  induction m with
  | nil => cases hm
  | cons hd rest ih =>
    obtain ⟨k, c⟩ := hd
    simp only [keysOf, List.map_cons, List.nodup_cons] at hn
    rcases List.mem_cons.mp hm with heq | hmem
    · obtain ⟨rfl, rfl⟩ := Prod.mk.injEq .. ▸ heq
      · simp [getCount]
    · have hkt : ¬k = t := by
        intro h
        exact hn.1 (h ▸ (List.mem_map.mpr ⟨(t, n), hmem, rfl⟩))
      simp only [getCount, if_neg hkt]
      exact ih (by simpa [keysOf] using hn.2) hmem

/-- Concrete paper with keywords Deep Learning; NLP. -/
def c6PaperA : Paper :=
  { mkPaper "t1" with keywords := "Deep Learning; NLP" }

/-- Concrete paper with keywords deep learning; Vision. -/
def c6PaperB : Paper :=
  { mkPaper "t2" with keywords := "deep learning; Vision" }

/-- C6: the tag facet counts semicolon-split, trimmed, lower-cased,
non-empty keyword pieces over the whole collection; the result is sorted
by count descending with ties by ascending lexicographic order on the
lower-cased tag and truncated to the top fifty; on the concrete pair of
papers of the claim it yields deep learning 2, nlp 1, vision 1 in that
order. -/
theorem c6_tags_with_counts (papers : List Paper) :
    tagsWithCounts [c6PaperA, c6PaperB]
      = [("deep learning", 2), ("nlp", 1), ("vision", 1)] ∧
    (tagsWithCounts papers).length ≤ 50 ∧
    List.Sorted tagOrder (tagsWithCounts papers) ∧
    (∀ (t : String) (n : Nat), (t, n) ∈ tagsWithCounts papers →
      n = (tagOccurrences papers).count t) := by
  refine ⟨by decide, List.length_take_le 50 _, ?_, ?_⟩
  · exact (List.sorted_insertionSort tagOrder
      (tagCountMap papers)).sublist (List.take_sublist 50 _)
  · intro t n h
    have h1 : (t, n) ∈ List.insertionSort tagOrder (tagCountMap papers) :=
      List.mem_of_mem_take h
    have h2 : (t, n) ∈ tagCountMap papers :=
      (List.perm_insertionSort tagOrder (tagCountMap papers)).mem_iff.mp h1
    have h3 : getCount (tagCountMap papers) t = n :=
      getCount_of_mem _ (nodup_keysOf_tagCountMap papers) t n h2
    rw [← h3, getCount_tagCountMap]

/-- Closed instance of the C6 theorem: the count of deep learning over
the two concrete papers is two. -/
theorem c6_tags_with_counts_witness :
    (2 : Nat) = (tagOccurrences [c6PaperA, c6PaperB]).count "deep learning" :=
  (c6_tags_with_counts [c6PaperA, c6PaperB]).2.2.2 "deep learning" 2
    (by decide)

/-- Finds the first occurrence of `delim` in `s`: returns the part before
and the part after the occurrence.  This is the leftmost-match search of
the lazy regular expressions used by `renderLatex`. -/
def findSplit (delim : List Char) : List Char → Option (List Char × List Char)
  | [] => if listStartsWith delim [] then some ([], []) else none
  | c :: cs =>
    if listStartsWith delim (c :: cs) then some ([], (c :: cs).drop delim.length)
    else (findSplit delim cs).map (fun pr => (c :: pr.1, pr.2))

theorem listStartsWith_eq : ∀ (d s : List Char),
    listStartsWith d s = true → s = d ++ s.drop d.length := by
  intro d
  induction d with
  | nil => intro s _; simp
  | cons x xs ih =>
    intro s h
    cases s with
    | nil => exact Bool.noConfusion h
    | cons c cs =>
      simp only [listStartsWith, Bool.and_eq_true, beq_iff_eq] at h
      obtain ⟨rfl, h2⟩ := h
      simpa [List.length] using ih cs h2

theorem findSplit_eq : ∀ (s d pre rest : List Char),
    findSplit d s = some (pre, rest) → s = pre ++ d ++ rest := by
  intro s
  induction s with
  | nil =>
    intro d pre rest h
    cases d with
    | nil =>
      simp only [findSplit, listStartsWith, if_pos, Option.some.injEq,
        Prod.mk.injEq] at h
      obtain ⟨h1, h2⟩ := h
      subst h1
      subst h2
      rfl
    | cons x xs =>
      simp [findSplit, listStartsWith] at h
  | cons c cs ih =>
    intro d pre rest h
    simp only [findSplit] at h
    by_cases hd : listStartsWith d (c :: cs) = true
    · rw [if_pos hd] at h
      simp only [Option.some.injEq, Prod.mk.injEq] at h
      obtain ⟨h1, h2⟩ := h
      subst h1
      subst h2
      simpa using listStartsWith_eq d (c :: cs) hd
    · rw [if_neg hd, Option.map_eq_some'] at h
      obtain ⟨⟨p, r⟩, hfs, heq⟩ := h
      simp only [Prod.mk.injEq] at heq
      obtain ⟨h1, h2⟩ := heq
      subst h1
      subst h2
      simpa using ih d p r hfs

/-- One global replace pass of the source `renderLatex`: repeatedly find
the opening delimiter, then the nearest closing delimiter after it (the
lazy match), hand the enclosed formula to the rendering collaborator, and
substitute its output — or, when rendering fails, the original matched
text unchanged.  The fuel argument strictly bounds the number of matches,
which consume at least the two delimiters each, so the initial fuel
`length + 1` is never exhausted. -/
def replacePassF (opn cls : List Char) (rnd : String → Option String) :
    Nat → List Char → List Char
  | 0, s => s
  | fuel + 1, s =>
    match findSplit opn s with
    | none => s
    | some (pre, rest1) =>
      match findSplit cls rest1 with
      | none => s
      | some (formula, rest2) =>
        let rep := match rnd (String.mk formula) with
          | some r => r.data
          | none => opn ++ formula ++ cls
        pre ++ rep ++ replacePassF opn cls rnd fuel rest2

/-- One delimiter pass over a string with sufficient fuel. -/
def replacePass (opn cls : List Char) (rnd : String → Option String)
    (s : List Char) : List Char :=
  replacePassF opn cls rnd (s.length + 1) s

/-- The source `renderLatex`, parameterised by the formula-rendering
collaborator (`some` for katex.renderToString returning markup, `none`
for a throw): empty input short-circuits to the empty string; otherwise
the four delimiter conventions are processed in the fixed source order —
display `$$...$$`, display `\[...\]`, inline `$...$`, inline `\(...\)`. -/
def renderLatex (rend : String → Bool → Option String) (text : String) :
    String :=
  if text = "" then ""
  else
    let s1 := replacePass ['$', '$'] ['$', '$'] (fun f => rend f true) text.data
    let s2 := replacePass ['\\', '['] ['\\', ']'] (fun f => rend f true) s1
    let s3 := replacePass ['$'] ['$'] (fun f => rend f false) s2
    let s4 := replacePass ['\\', '('] ['\\', ')'] (fun f => rend f false) s3
    String.mk s4

theorem replacePassF_none (opn cls : List Char) (rnd : String → Option String)
    (hr : ∀ f, rnd f = none) :
    ∀ (fuel : Nat) (s : List Char), replacePassF opn cls rnd fuel s = s := by
  intro fuel
  induction fuel with
  | zero => intro s; rfl
  | succ fuel ih =>
    intro s
    cases h1 : findSplit opn s with
    | none => simp [replacePassF, h1]
    | some pr1 =>
      obtain ⟨pre, rest1⟩ := pr1
      cases h2 : findSplit cls rest1 with
      | none => simp [replacePassF, h1, h2]
      | some pr2 =>
        obtain ⟨formula, rest2⟩ := pr2
        have e1 : s = pre ++ opn ++ rest1 := findSplit_eq s opn pre rest1 h1
        have e2 : rest1 = formula ++ cls ++ rest2 :=
          findSplit_eq rest1 cls formula rest2 h2
        simp only [replacePassF, h1, h2, hr, ih]
        rw [e1, e2]
        simp

theorem string_mk_data (s : String) : String.mk s.data = s := rfl

/-- A concrete working rendering collaborator used for the positive
scenario of the claim. -/
def goodRenderer (f : String) (display : Bool) : Option String :=
  some ("<" ++ f ++ (if display then ":D" else ":I") ++ ">")

/-- A concrete collaborator that throws exactly on the formula x^2. -/
def throwOnX2 (f : String) (_display : Bool) : Option String :=
  if f = "x^2" then none else some "R"

/-- C8: when every rendering attempt fails, `renderLatex` returns every
input unchanged; a working renderer substitutes the inline formula of
the claim in place, leaving the surrounding text untouched; and a
renderer that throws on exactly that formula leaves the whole input
string unchanged. -/
theorem c8_render_latex (rend : String → Bool → Option String)
    (hfail : ∀ (f : String) (m : Bool), rend f m = none) :
    (∀ s : String, renderLatex rend s = s) ∧
    renderLatex goodRenderer "Result: $x^2$ done"
      = "Result: " ++ "<x^2:I>" ++ " done" ∧
    renderLatex throwOnX2 "Result: $x^2$ done" = "Result: $x^2$ done" := by
  refine ⟨?_, by decide, by decide⟩
  intro s
  by_cases hs : s = ""
  · simp [renderLatex, hs]
  · simp only [renderLatex, if_neg hs, replacePass]
    rw [replacePassF_none _ _ _ (fun f => hfail f true)]
    rw [replacePassF_none _ _ _ (fun f => hfail f true)]
    rw [replacePassF_none _ _ _ (fun f => hfail f false)]
    rw [replacePassF_none _ _ _ (fun f => hfail f false)]

/-- Closed instance of the C8 theorem with the always-failing
collaborator applied to the string of the claim. -/
theorem c8_render_latex_witness :
    renderLatex (fun _ _ => none) "Result: $x^2$ done"
        = "Result: $x^2$ done" ∧
    renderLatex goodRenderer "Result: $x^2$ done"
      = "Result: " ++ "<x^2:I>" ++ " done" ∧
    renderLatex throwOnX2 "Result: $x^2$ done" = "Result: $x^2$ done" :=
  ⟨(c8_render_latex (fun _ _ => none) (fun _ _ => rfl)).1 "Result: $x^2$ done",
   (c8_render_latex (fun _ _ => none) (fun _ _ => rfl)).2⟩

/-- C10: for the empty input the renderer returns the empty string for
every collaborator, so the collaborator is never consulted. -/
theorem c10_render_latex_empty (rend : String → Bool → Option String) :
    renderLatex rend "" = "" := rfl

/-- `Set.prototype.add` on the insertion-ordered list embedding used by
the suggestion collector. -/
def addUnique (acc : List String) (s : String) : List String :=
  if s ∈ acc then acc else acc ++ [s]

/-- The per-paper body of the `searchSuggestions` scan: the title when it
contains the query, then every trimmed comma-split author containing it,
then every trimmed semicolon-split keyword containing it — all compared
lower-cased, all added to the duplicate-free insertion-ordered set. -/
def suggestStep (query : String) (acc : List String) (p : Paper) :
    List String :=
  let acc1 := if containsStr (toLowerS p.title) query
    then addUnique acc p.title else acc
  let acc2 := (splitS p.authors ',').foldl (fun a author =>
    if containsStr (toLowerS (trimS author)) query
    then addUnique a (trimS author) else a) acc1
  (splitS p.keywords ';').foldl (fun a k =>
    if containsStr (toLowerS (trimS k)) query
    then addUnique a (trimS k) else a) acc2

/-- The computed `searchSuggestions` of the source: lower-case and trim
the query, return the empty list for an empty query, otherwise scan the
collection in order and keep at most the first five distinct hits. -/
def searchSuggestions (papers : List Paper) (rawQuery : String) :
    List String :=
  let query := trimS (toLowerS rawQuery)
  if query = "" then []
  else (papers.foldl (suggestStep query) []).take 5

/-- The disjunction a suggestion must satisfy for some paper. -/
def suggestProp (query : String) (p : Paper) (s : String) : Prop :=
  (s = p.title ∧ containsStr (toLowerS p.title) query = true) ∨
  (∃ a ∈ splitS p.authors ',', s = trimS a ∧
    containsStr (toLowerS (trimS a)) query = true) ∨
  (∃ k ∈ splitS p.keywords ';', s = trimS k ∧
    containsStr (toLowerS (trimS k)) query = true)

theorem addUnique_nodup (acc : List String) (s : String)
    (h : acc.Nodup) : (addUnique acc s).Nodup := by
  by_cases hm : s ∈ acc
  · simpa [addUnique, hm] using h
  · simp [addUnique, hm, List.nodup_append, h]

theorem mem_addUnique (acc : List String) (x s : String)
    (h : s ∈ addUnique acc x) : s ∈ acc ∨ s = x := by
  by_cases hm : x ∈ acc
  · left
    simpa [addUnique, hm] using h
  · simpa [addUnique, hm] using h

theorem nodup_foldl_addUnique {β : Type} (g : β → String) (cond : β → Bool) :
    ∀ (l : List β) (acc : List String), acc.Nodup →
    (l.foldl (fun a b => if cond b then addUnique a (g b) else a) acc).Nodup := by
  intro l
  induction l with
  | nil => intro acc h; exact h
  | cons b rest ih =>
    intro acc h
    simp only [List.foldl_cons]
    by_cases hc : cond b = true
    · exact ih _ (by simpa [hc] using addUnique_nodup acc (g b) h)
    · simpa [hc] using ih _ h

theorem mem_foldl_addUnique {β : Type} (g : β → String) (cond : β → Bool) :
    ∀ (l : List β) (acc : List String) (s : String),
    s ∈ l.foldl (fun a b => if cond b then addUnique a (g b) else a) acc →
    s ∈ acc ∨ ∃ b ∈ l, s = g b ∧ cond b = true := by
  intro l
  induction l with
  | nil => intro acc s h; exact Or.inl h
  | cons b rest ih =>
    intro acc s h
    simp only [List.foldl_cons] at h
    rcases ih _ s h with hacc | ⟨b2, hb2, heq, hc⟩
    · by_cases hc : cond b = true
      · rw [if_pos hc] at hacc
        rcases mem_addUnique acc (g b) s hacc with h1 | h1
        · exact Or.inl h1
        · exact Or.inr ⟨b, List.mem_cons_self b rest, h1, hc⟩
      · rw [if_neg hc] at hacc
        exact Or.inl hacc
    · exact Or.inr ⟨b2, List.mem_cons_of_mem b hb2, heq, hc⟩

theorem suggestStep_nodup (query : String) (acc : List String) (p : Paper)
    (h : acc.Nodup) : (suggestStep query acc p).Nodup := by
  simp only [suggestStep]
  refine nodup_foldl_addUnique (fun k => trimS k)
    (fun k => containsStr (toLowerS (trimS k)) query) _ _ ?_
  refine nodup_foldl_addUnique (fun a => trimS a)
    (fun a => containsStr (toLowerS (trimS a)) query) _ _ ?_
  by_cases hc : containsStr (toLowerS p.title) query = true
  · simpa [hc] using addUnique_nodup acc p.title h
  · simpa [hc] using h

theorem mem_suggestStep (query : String) (acc : List String) (p : Paper)
    (s : String) (h : s ∈ suggestStep query acc p) :
    s ∈ acc ∨ suggestProp query p s := by
  simp only [suggestStep] at h
  rcases mem_foldl_addUnique (fun k => trimS k)
      (fun k => containsStr (toLowerS (trimS k)) query) _ _ s h with
    h2 | ⟨k, hk, heq, hc⟩
  · rcases mem_foldl_addUnique (fun a => trimS a)
        (fun a => containsStr (toLowerS (trimS a)) query) _ _ s h2 with
      h3 | ⟨a, ha, heq, hc⟩
    · by_cases hc : containsStr (toLowerS p.title) query = true
      · rw [if_pos hc] at h3
        rcases mem_addUnique acc p.title s h3 with h4 | h4
        · exact Or.inl h4
        · exact Or.inr (Or.inl ⟨h4, hc⟩)
      · rw [if_neg hc] at h3
        exact Or.inl h3
    · exact Or.inr (Or.inr (Or.inl ⟨a, ha, heq, hc⟩))
  · exact Or.inr (Or.inr (Or.inr ⟨k, hk, heq, hc⟩))

theorem nodup_foldl_suggestStep (query : String) :
    ∀ (papers : List Paper) (acc : List String), acc.Nodup →
    (papers.foldl (suggestStep query) acc).Nodup := by
  intro papers
  induction papers with
  | nil => intro acc h; exact h
  | cons p rest ih =>
    intro acc h
    exact ih _ (suggestStep_nodup query acc p h)

theorem mem_foldl_suggestStep (query : String) :
    ∀ (papers : List Paper) (acc : List String) (s : String),
    s ∈ papers.foldl (suggestStep query) acc →
    s ∈ acc ∨ ∃ p ∈ papers, suggestProp query p s := by
  intro papers
  induction papers with
  | nil => intro acc s h; exact Or.inl h
  | cons p rest ih =>
    intro acc s h
    simp only [List.foldl_cons] at h
    rcases ih _ s h with h2 | ⟨p2, hp2, hprop⟩
    · rcases mem_suggestStep query acc p s h2 with h3 | h3
      · exact Or.inl h3
      · exact Or.inr ⟨p, List.mem_cons_self p rest, h3⟩
    · exact Or.inr ⟨p2, List.mem_cons_of_mem p hp2, hprop⟩

/-- C9: an empty (after trimming) query yields no suggestions; otherwise
the suggestion list is duplicate-free, holds at most five entries, and
every entry is a matching title, a matching trimmed comma-split author,
or a matching trimmed semicolon-split keyword of some paper of the
collection, collected by the deterministic in-order scan embodied in
`searchSuggestions`. -/
theorem c9_search_suggestions (papers : List Paper) (rawQuery : String) :
    (trimS (toLowerS rawQuery) = "" →
      searchSuggestions papers rawQuery = []) ∧
    (searchSuggestions papers rawQuery).Nodup ∧
    (searchSuggestions papers rawQuery).length ≤ 5 ∧
    (∀ s ∈ searchSuggestions papers rawQuery,
      ∃ p ∈ papers, suggestProp (trimS (toLowerS rawQuery)) p s) := by
  refine ⟨fun h => by simp [searchSuggestions, h], ?_, ?_, ?_⟩
  · by_cases h : trimS (toLowerS rawQuery) = ""
    · simp [searchSuggestions, h]
    · simp only [searchSuggestions, if_neg h]
      exact (nodup_foldl_suggestStep _ papers [] List.nodup_nil).sublist
        (List.take_sublist 5 _)
  · by_cases h : trimS (toLowerS rawQuery) = ""
    · simp [searchSuggestions, h]
    · simp only [searchSuggestions, if_neg h]
      exact List.length_take_le 5 _
  · intro s hs
    by_cases h : trimS (toLowerS rawQuery) = ""
    · simp [searchSuggestions, h] at hs
    · simp only [searchSuggestions, if_neg h] at hs
      have h1 := List.mem_of_mem_take hs
      rcases mem_foldl_suggestStep _ papers [] s h1 with h2 | h2
      · cases h2
      · exact h2

/-- Closed instance of the C9 theorem: the suggestion a for the query a
over the one-paper collection comes from that paper. -/
theorem c9_search_suggestions_witness :
    ∃ p ∈ [samplePaperA], suggestProp (trimS (toLowerS "a")) p "a" :=
  (c9_search_suggestions [samplePaperA] "a").2.2.2 "a" (by decide)
